import Mathlib

/-!
Verification of the audio-capture pipeline: the overlap segmenter, the
live-subtitle respawn loop, the WAV normalizer, the PCM quantizer and the
transcript merge, shallowly embedded from the TypeScript sources
(`useAudioRecording.ts`, `audioProcessing.ts`, `AudioCapture.tsx`).
-/

/-! ## Overlap Segmenter (tail-retention mode)

Embedded from the `streamToServer` branch of `useAudioRecording.ts`:
`ondataavailable` pushes each chunk, adds `timesliceMs` to the elapsed
counter, and when the counter reaches the target it seals all buffered
chunks, keeps the last `min(length, overlapCount)` chunks and sets the
counter to `keep * timesliceMs`; `onstop` flushes any non-empty buffer.
Chunks are modelled as opaque identifiers (`Nat`).
-/

def timesliceMs : Nat := 250

def overlapMs : Nat := 1000

/-- `Math.ceil(overlapMs / timesliceMs)` on positive integers. -/
def overlapCount : Nat := (overlapMs + timesliceMs - 1) / timesliceMs

/-- `Math.max(1000, segmentDurationSec * 1000)`. -/
def segmentTargetMs (segmentDurationSec : Nat) : Nat :=
  max 1000 (segmentDurationSec * 1000)

structure SegState where
  buffer : List Nat
  elapsedMs : Nat
deriving DecidableEq

def segInit : SegState := ⟨[], 0⟩

/-- One `ondataavailable` callback: returns the new state and the sealed
segment, if this chunk triggered a seal. -/
def onChunk (d : Nat) (s : SegState) (c : Nat) : SegState × Option (List Nat) :=
  let buf := s.buffer ++ [c]
  let elapsed := s.elapsedMs + timesliceMs
  if segmentTargetMs d ≤ elapsed then
    let keep := min buf.length overlapCount
    let tl := if 0 < keep then buf.drop (buf.length - keep) else []
    (⟨tl, keep * timesliceMs⟩, some buf)
  else
    (⟨buf, elapsed⟩, none)

/-- The `onstop` flush: seal whatever is buffered, if anything. -/
def onStop (s : SegState) : SegState × Option (List Nat) :=
  if 0 < s.buffer.length then (⟨[], 0⟩, some s.buffer) else (s, none)

/-- Feed a chunk sequence through the segmenter from a given state,
collecting sealed segments in order. -/
def feedFrom (d : Nat) (s : SegState) : List Nat → SegState × List (List Nat)
  | [] => (s, [])
  | c :: cs =>
    match onChunk d s c with
    | (s₁, some seg) =>
      let r := feedFrom d s₁ cs
      (r.1, seg :: r.2)
    | (s₁, none) => feedFrom d s₁ cs

def feed (d : Nat) (cs : List Nat) : SegState × List (List Nat) :=
  feedFrom d segInit cs

/-- All segments sealed over a whole session: the mid-stream seals followed
by the final `onstop` flush. -/
def sealedSegments (d : Nat) (cs : List Nat) : List (List Nat) :=
  let r := feed d cs
  r.2 ++ (match (onStop r.1).2 with | some seg => [seg] | none => [])

/-- The last `overlapCount` chunks of a segment. -/
def tailOv (l : List Nat) : List Nat := l.drop (l.length - overlapCount)

/-- Segment `b` starts with the carried-over tail of segment `a`. -/
def overlapRel (a b : List Nat) : Prop := b.take overlapCount = tailOv a

/-- Concatenation of the non-overlap regions of all segments after the
first (each drops its carried-over prefix). -/
def reconstructTail : List (List Nat) → List Nat
  | [] => []
  | s :: rest => s.drop overlapCount ++ reconstructTail rest

/-- Concatenation of all non-overlap regions: the first segment whole,
every later segment minus its carried-over prefix. -/
def reconstruct : List (List Nat) → List Nat
  | [] => []
  | s :: rest => s ++ reconstructTail rest

theorem overlapCount_eq_four : overlapCount = 4 := by decide

theorem thousand_le_target (d : Nat) : 1000 ≤ segmentTargetMs d :=
  le_max_left _ _

theorem onChunk_seal (d : Nat) (s : SegState) (c : Nat)
    (h : segmentTargetMs d ≤ s.elapsedMs + timesliceMs)
    (hlen : overlapCount ≤ s.buffer.length + 1) :
    onChunk d s c =
      (⟨(s.buffer ++ [c]).drop (s.buffer.length + 1 - overlapCount),
        overlapCount * timesliceMs⟩, some (s.buffer ++ [c])) := by
  have hl : (s.buffer ++ [c]).length = s.buffer.length + 1 := by simp
  have hmin : (s.buffer.length + 1) ⊓ overlapCount = overlapCount := min_eq_right hlen
  have hpos : 0 < overlapCount := by decide
  simp only [onChunk, if_pos h, hl, hmin, if_pos hpos]

theorem onChunk_noSeal (d : Nat) (s : SegState) (c : Nat)
    (h : ¬ segmentTargetMs d ≤ s.elapsedMs + timesliceMs) :
    onChunk d s c = (⟨s.buffer ++ [c], s.elapsedMs + timesliceMs⟩, none) := by
  simp only [onChunk, if_neg h]

theorem feedFrom_cons_seal {d : Nat} {s s₁ : SegState} {c : Nat} {seg : List Nat}
    (cs : List Nat) (h : onChunk d s c = (s₁, some seg)) :
    feedFrom d s (c :: cs) = ((feedFrom d s₁ cs).1, seg :: (feedFrom d s₁ cs).2) := by
  simp only [feedFrom, h]

theorem feedFrom_cons_noSeal {d : Nat} {s s₁ : SegState} {c : Nat}
    (cs : List Nat) (h : onChunk d s c = (s₁, none)) :
    feedFrom d s (c :: cs) = feedFrom d s₁ cs := by
  simp only [feedFrom, h]

/-- Workhorse invariant for the tail-retention segmenter, by induction over
the chunk stream: the elapsed counter tracks the buffer length, consecutive
sealed segments (and the final buffer) are linked by the carried-over tail,
every sealed segment is at least `overlapCount` long, the first segment
sealed from a state extends that state's buffer, and the sealed segments'
non-overlap regions together with the live buffer reassemble the input. -/
theorem feedFrom_spec (d : Nat) (cs : List Nat) :
    ∀ s : SegState, s.elapsedMs = s.buffer.length * timesliceMs →
      ((feedFrom d s cs).1.elapsedMs = (feedFrom d s cs).1.buffer.length * timesliceMs) ∧
      List.Chain' overlapRel ((feedFrom d s cs).2 ++ [(feedFrom d s cs).1.buffer]) ∧
      (∀ seg ∈ (feedFrom d s cs).2, overlapCount ≤ seg.length) ∧
      (∀ seg₁ rest, (feedFrom d s cs).2 = seg₁ :: rest → ∃ t, seg₁ = s.buffer ++ t) ∧
      (((feedFrom d s cs).2 = [] ∧ (feedFrom d s cs).1.buffer = s.buffer ++ cs) ∨
       ((feedFrom d s cs).2 ≠ [] ∧
         s.buffer ++ cs =
           reconstruct (feedFrom d s cs).2 ++
             (feedFrom d s cs).1.buffer.drop overlapCount)) := by
  induction cs with
  | nil =>
    intro s hGood
    refine ⟨hGood, ?_, ?_, ?_, ?_⟩
    · simp [feedFrom]
    · simp [feedFrom]
    · simp [feedFrom]
    · exact Or.inl ⟨rfl, by simp [feedFrom]⟩
  | cons c cs ih =>
    intro s hGood
    by_cases hseal : segmentTargetMs d ≤ s.elapsedMs + timesliceMs
    · -- this chunk seals a segment
      have hlen : overlapCount ≤ s.buffer.length + 1 := by
        have h1000 : 1000 ≤ s.elapsedMs + timesliceMs :=
          le_trans (thousand_le_target d) hseal
        rw [hGood] at h1000
        rw [overlapCount_eq_four]
        simp only [timesliceMs] at h1000
        omega
      have hstep := onChunk_seal d s c hseal hlen
      set seg : List Nat := s.buffer ++ [c] with hseg
      set s₁ : SegState :=
        ⟨(s.buffer ++ [c]).drop (s.buffer.length + 1 - overlapCount),
          overlapCount * timesliceMs⟩ with hs₁
      have hlen1 : s₁.buffer.length = overlapCount := by
        simp only [hs₁, List.length_drop, List.length_append, List.length_singleton]
        omega
      have htail : s₁.buffer = tailOv seg := by
        simp only [hs₁, hseg, tailOv, List.length_append, List.length_singleton]
      have hGood1 : s₁.elapsedMs = s₁.buffer.length * timesliceMs := by
        rw [hlen1]
      have hrw := feedFrom_cons_seal (d := d) cs hstep
      obtain ⟨A, B, C, D, E⟩ := ih s₁ hGood1
      rw [hrw]
      refine ⟨A, ?_, ?_, ?_, ?_⟩
      · -- chain property
        simp only [List.cons_append]
        rw [List.chain'_cons']
        refine ⟨?_, B⟩
        intro b hb
        rcases hE2 : (feedFrom d s₁ cs).2 with _ | ⟨t, ts⟩
        · -- no further seal: the next list element is the final buffer
          rcases E with ⟨-, hbuf⟩ | ⟨hne, -⟩
          · rw [hE2] at hb
            simp only [List.nil_append, List.head?_cons, Option.mem_def,
              Option.some.injEq] at hb
            subst hb
            show (feedFrom d s₁ cs).1.buffer.take overlapCount = tailOv seg
            rw [hbuf, ← hlen1, List.take_left, htail]
          · exact absurd hE2 hne
        · rw [hE2] at hb
          simp only [List.cons_append, List.head?_cons, Option.mem_def,
            Option.some.injEq] at hb
          subst hb
          obtain ⟨u, hu⟩ := D t ts hE2
          show t.take overlapCount = tailOv seg
          rw [hu, ← hlen1, List.take_left, htail]
      · intro sg hsg
        rcases List.mem_cons.mp hsg with h | h
        · subst h
          simpa [hseg] using hlen
        · exact C sg h
      · intro seg₁ rest h
        injection h with h₁ h₂
        exact ⟨[c], h₁.symm ▸ rfl⟩
      · refine Or.inr ⟨by simp, ?_⟩
        show s.buffer ++ c :: cs =
          reconstruct (seg :: (feedFrom d s₁ cs).2) ++
            (feedFrom d s₁ cs).1.buffer.drop overlapCount
        rcases hE2 : (feedFrom d s₁ cs).2 with _ | ⟨t, ts⟩
        · rcases E with ⟨-, hbuf⟩ | ⟨hne, -⟩
          · -- only this one segment was sealed
            simp only [reconstruct, reconstructTail, List.append_nil]
            rw [hbuf, ← hlen1, List.drop_left]
            simp [hseg]
          · exact absurd hE2 hne
        · rcases E with ⟨hnil, -⟩ | ⟨-, hrec⟩
          · rw [hE2] at hnil; exact absurd hnil (by simp)
          · rw [hE2] at hrec
            obtain ⟨u, hu⟩ := D t ts hE2
            have hdropu : t.drop overlapCount = u := by
              rw [hu, ← hlen1, List.drop_left]
            have hcs :
                cs = u ++ (reconstructTail ts ++
                  (feedFrom d s₁ cs).1.buffer.drop overlapCount) := by
              rw [hu] at hrec
              simp only [reconstruct, reconstructTail, List.append_assoc] at hrec
              exact List.append_cancel_left hrec
            simp only [reconstruct, reconstructTail, hdropu, List.append_assoc]
            have hgoalL : s.buffer ++ c :: cs = seg ++ cs := by simp [hseg]
            rw [hgoalL]
            exact congrArg (fun l => seg ++ l) hcs
    · -- no seal on this chunk
      have hstep := onChunk_noSeal d s c hseal
      set s₁ : SegState := ⟨s.buffer ++ [c], s.elapsedMs + timesliceMs⟩ with hs₁
      have hGood1 : s₁.elapsedMs = s₁.buffer.length * timesliceMs := by
        simp only [hs₁, List.length_append, List.length_singleton]
        rw [hGood]; ring
      have hrw := feedFrom_cons_noSeal (d := d) cs hstep
      obtain ⟨A, B, C, D, E⟩ := ih s₁ hGood1
      rw [hrw]
      refine ⟨A, B, C, ?_, ?_⟩
      · intro seg₁ rest h
        obtain ⟨u, hu⟩ := D seg₁ rest h
        exact ⟨[c] ++ u, by simpa [List.append_assoc] using hu⟩
      · rcases E with ⟨hnil, hbuf⟩ | ⟨hne, hrec⟩
        · exact Or.inl ⟨hnil, by simpa [List.append_assoc] using hbuf⟩
        · exact Or.inr ⟨hne, by simpa [List.append_assoc] using hrec⟩

theorem reconstructTail_append_single (l : List (List Nat)) (x : List Nat) :
    reconstructTail (l ++ [x]) = reconstructTail l ++ x.drop overlapCount := by
  induction l with
  | nil => simp [reconstructTail]
  | cons a l ih => simp [reconstructTail, ih]

theorem segInit_good : segInit.elapsedMs = segInit.buffer.length * timesliceMs := by
  simp [segInit]

/-- Over a whole session (feed plus final flush), consecutive sealed
segments are linked by the carried-over tail. -/
theorem sealedSegments_chain (d : Nat) (cs : List Nat) :
    List.Chain' overlapRel (sealedSegments d cs) := by
  obtain ⟨A, B, C, D, E⟩ := feedFrom_spec d cs segInit segInit_good
  by_cases h : 0 < (feedFrom d segInit cs).1.buffer.length
  · simpa only [sealedSegments, feed, onStop, if_pos h] using B
  · have hnil : (feedFrom d segInit cs).1.buffer = [] := by
      simpa using List.eq_nil_of_length_eq_zero (by omega)
    simp only [sealedSegments, feed, onStop, if_neg h, List.append_nil]
    exact (List.chain'_append.mp B).1

/-- Over a whole session, the non-overlap regions of the sealed segments
concatenate back to the original chunk sequence. -/
theorem sealedSegments_reconstruct (d : Nat) (cs : List Nat) :
    reconstruct (sealedSegments d cs) = cs := by
  obtain ⟨A, B, C, D, E⟩ := feedFrom_spec d cs segInit segInit_good
  by_cases h : 0 < (feedFrom d segInit cs).1.buffer.length
  · simp only [sealedSegments, feed, onStop, if_pos h]
    rcases E with ⟨hnil, hbuf⟩ | ⟨hne, hrec⟩
    · rw [hnil]
      simp only [List.nil_append, reconstruct, reconstructTail, List.append_nil]
      rw [hbuf]; simp [segInit]
    · rcases hsegs : (feedFrom d segInit cs).2 with _ | ⟨seg₁, rest⟩
      · exact absurd hsegs hne
      · rw [hsegs] at hrec
        simp only [segInit, List.nil_append] at hrec
        simp only [List.cons_append, reconstruct, reconstructTail_append_single]
        simp only [reconstruct, List.append_assoc] at hrec
        exact hrec.symm
  · have hnil : (feedFrom d segInit cs).1.buffer = [] :=
      List.eq_nil_of_length_eq_zero (by omega)
    simp only [sealedSegments, feed, onStop, if_neg h, List.append_nil]
    rcases E with ⟨hsegs, hbuf⟩ | ⟨hne, hrec⟩
    · rw [hsegs]
      rcases cs with _ | ⟨a, as⟩
      · rfl
      · exfalso
        rw [hnil] at hbuf
        simp [segInit] at hbuf
    · rw [hnil] at hrec
      simp only [segInit, List.nil_append, List.drop_nil, List.append_nil] at hrec
      exact hrec.symm

/-- C1: the Segmenter accumulates elapsed time as
`chunkCount * timesliceMs`; on the chunk that makes accumulated time reach
the target it seals all buffered chunks, resets the buffer to the last
`min(overlapChunks, bufferedChunkCount)` chunks and sets elapsed time to
`retainedCount * timesliceMs`; with timeslice 250 ms, target 5000 ms and
overlap 1000 ms, 20 chunks trigger exactly one seal at chunk 20 (none in
the first 19), retaining the last 4 chunks with elapsed time 1000 ms. -/
theorem segmenter_elapsed_and_seal :
    (∀ d cs, (feed d cs).1.elapsedMs = (feed d cs).1.buffer.length * timesliceMs) ∧
    (∀ d (s : SegState) (c : Nat),
        segmentTargetMs d ≤ s.elapsedMs + timesliceMs →
        (onChunk d s c).2 = some (s.buffer ++ [c]) ∧
        (onChunk d s c).1.buffer =
          (s.buffer ++ [c]).drop
            ((s.buffer.length + 1) - min (s.buffer.length + 1) overlapCount) ∧
        (onChunk d s c).1.elapsedMs =
          min (s.buffer.length + 1) overlapCount * timesliceMs) ∧
    (feed 5 (List.range 20)).2 = [List.range 20] ∧
    (feed 5 (List.range 20)).1 = ⟨[16, 17, 18, 19], 4 * timesliceMs⟩ ∧
    (feed 5 (List.range 19)).2 = [] := by
  refine ⟨?_, ?_, by decide, by decide, by decide⟩
  · intro d cs
    exact (feedFrom_spec d cs segInit segInit_good).1
  · intro d s c hseal
    have h4 : (0 : Nat) < overlapCount := by decide
    have hpos : 0 < min (s.buffer.length + 1) overlapCount :=
      lt_min (Nat.succ_pos _) h4
    refine ⟨?_, ?_, ?_⟩ <;> simp [onChunk, hseal, hpos]

/-- Witness for C1 at a concrete sealing state: with 19 buffered chunks and
4750 ms elapsed, the 20th chunk seals all 20 chunks. -/
theorem segmenter_elapsed_and_seal_witness :
    (onChunk 5 ⟨List.range 19, 4750⟩ 19).2 = some (List.range 19 ++ [19]) :=
  (segmenter_elapsed_and_seal.2.1 5 ⟨List.range 19, 4750⟩ 19 (by decide)).1

/-- C2: in continuous tail-retention mode, for every chunk sequence, every
sealed segment after the first starts with the last
`overlapChunks = ceil(overlapMs / timesliceMs) = 4` chunks of the previous
sealed segment. -/
theorem segments_overlap_chain :
    overlapCount = 4 ∧
    ∀ d cs, List.Chain' overlapRel (sealedSegments d cs) :=
  ⟨overlapCount_eq_four, sealedSegments_chain⟩

/-- C3: for every chunk sequence, concatenating each sealed segment's
non-overlap region (first segment whole, later segments minus their
carried-over prefix) reproduces the original sequence exactly. -/
theorem segments_reconstruct_original :
    ∀ d cs, reconstruct (sealedSegments d cs) = cs :=
  sealedSegments_reconstruct

/-- C4: a stop with a non-empty buffer seals and emits all buffered chunks
as a final short segment; 17 chunks of 250 ms against a 5000 ms target
never trigger a mid-stream seal (elapsed stays at 4250 ms), and the stop
emits one final segment containing all 17 chunks. -/
theorem stop_flushes_buffered :
    (∀ s : SegState, 0 < s.buffer.length → (onStop s).2 = some s.buffer) ∧
    (feed 5 (List.range 17)).2 = [] ∧
    (feed 5 (List.range 17)).1.elapsedMs = 4250 ∧
    sealedSegments 5 (List.range 17) = [List.range 17] := by
  refine ⟨?_, by decide, by decide, by decide⟩
  intro s hs
  simp only [onStop, if_pos hs]

/-- Witness for C4: flushing a concrete one-chunk buffer emits it. -/
theorem stop_flushes_buffered_witness :
    (onStop ⟨[0], 250⟩).2 = some [0] :=
  stop_flushes_buffered.1 ⟨[0], 250⟩ (by decide)

/-! ## Live-subtitle respawn loop

Embedded from `startLiveSubtitles` / `stopLiveSubtitles` in
`useAudioRecording.ts`. Each short-lived recorder buffers chunks; its
`onstop` handler uploads the buffered chunks whenever they are non-empty
(`if (chunks.length > 0) { ... void sendChunkToTranscription(payload); }`)
and re-spawns a fresh recorder only while the loop flag is still set.
`stopLiveSubtitles` clears the loop flag and then stops the in-flight
recorder, which runs that same `onstop` handler. `uploads` records each
payload handed to `sendChunkToTranscription`, in order.
-/

structure LiveState where
  loopActive : Bool
  recording : Bool
  chunks : List Nat
  uploads : List (List Nat)
deriving DecidableEq

/-- `startSegmentRecorder`: spawn a recorder with a fresh chunk list (only
done while the loop is active). -/
def liveSpawn (s : LiveState) : LiveState :=
  if s.loopActive then { s with recording := true, chunks := [] } else s

/-- A recorder `ondataavailable` callback. -/
def liveData (s : LiveState) (c : Nat) : LiveState :=
  if s.recording then { s with chunks := s.chunks ++ [c] } else s

/-- `recorder.stop()` on a recording recorder: the `onstop` handler uploads
any non-empty chunk list and re-spawns while the loop flag is set. -/
def liveRecorderStop (s : LiveState) : LiveState :=
  if s.recording then
    let s₁ : LiveState := { s with recording := false }
    let s₂ : LiveState :=
      if s₁.chunks ≠ [] then { s₁ with uploads := s₁.uploads ++ [s₁.chunks] } else s₁
    if s₂.loopActive then liveSpawn s₂ else s₂
  else s

/-- The timer that bounds each recorder to one target-duration window. -/
def liveTimerFires (s : LiveState) : LiveState := liveRecorderStop s

/-- `stopLiveSubtitles`: clear the loop flag, then stop the in-flight
recorder if it is recording. -/
def stopLiveSubtitles (s : LiveState) : LiveState :=
  let s₁ : LiveState := { s with loopActive := false }
  if s₁.recording then liveRecorderStop s₁ else s₁

/-- C5 counterexample: with the live loop running, one chunk buffered and
nothing uploaded yet, `stopLiveSubtitles` hands the partial segment's
chunks to the uploader instead of discarding them. -/
theorem stopLive_upload_counterexample :
    (stopLiveSubtitles ⟨true, true, [7], []⟩).uploads = [[7]] ∧
    (stopLiveSubtitles ⟨true, true, [7], []⟩).uploads ≠ ([] : List (List Nat)) := by
  decide

/-- C5 (amended): `stopLiveSubtitles` stops the in-flight live recorder and
prevents the loop from re-spawning, but the stopped recorder's buffered
chunks are uploaded by its `onstop` handler (a partial flush does occur)
rather than discarded. -/
theorem stopLive_flushes_buffered (s : LiveState)
    (hrec : s.recording = true) (hch : s.chunks ≠ []) :
    (stopLiveSubtitles s).uploads = s.uploads ++ [s.chunks] ∧
    (stopLiveSubtitles s).loopActive = false ∧
    (stopLiveSubtitles s).recording = false := by
  simp [stopLiveSubtitles, liveRecorderStop, liveSpawn, hrec, hch]

/-- Witness for C5 (amended) at the counterexample state. -/
theorem stopLive_flushes_buffered_witness :
    (stopLiveSubtitles ⟨true, true, [7], []⟩).uploads = [] ++ [[7]] ∧
    (stopLiveSubtitles ⟨true, true, [7], []⟩).loopActive = false ∧
    (stopLiveSubtitles ⟨true, true, [7], []⟩).recording = false :=
  stopLive_flushes_buffered ⟨true, true, [7], []⟩ rfl (by decide)

/-! ## Format Normalizer

Embedded from `audioProcessing.ts`. Blobs carry a MIME type string and a
byte list. Decoding (`AudioContext.decodeAudioData`) and offline rendering
(`OfflineAudioContext.startRendering`) are browser collaborators: decoding
is a parameter `decode` returning an `AudioBuffer` or failing, and the
rendered sample values are a parameter `render`; the shape of the rendered
buffer (mono, target rate, `ceil(duration * rate)` frames) is fixed by the
code. Float samples are modelled as rationals.
-/

def charsStartWith : List Char → List Char → Bool
  | [], _ => true
  | _ :: _, [] => false
  | p :: ps, c :: cs => p == c && charsStartWith ps cs

def charsInclude (pat : List Char) : List Char → Bool
  | [] => charsStartWith pat []
  | c :: cs => charsStartWith pat (c :: cs) || charsInclude pat cs

/-- `String.prototype.includes`. -/
def stringIncludes (s pat : String) : Bool := charsInclude pat.toList s.toList

def wavTag : String := "wav"

def audioWavType : String := "audio/wav"

structure Blob where
  type : String
  bytes : List Nat
deriving DecidableEq

def Blob.size (b : Blob) : Nat := b.bytes.length

/-- An `AudioBuffer`: channel count, sample rate, per-channel samples. -/
structure AudioBuffer where
  numberOfChannels : Nat
  sampleRate : Nat
  channels : List (List ℚ)

def AudioBuffer.getChannelData (b : AudioBuffer) (i : Nat) : List ℚ :=
  b.channels.getD i []

/-- `AudioBuffer.length` (frame count). -/
def AudioBuffer.frameLen (b : AudioBuffer) : Nat := (b.getChannelData 0).length

/-- `AudioBuffer.duration = length / sampleRate`. -/
def AudioBuffer.duration (b : AudioBuffer) : ℚ :=
  (b.frameLen : ℚ) / (b.sampleRate : ℚ)

/-- Truncation toward zero, as ECMAScript number-to-integer conversion. -/
def ratTrunc (q : ℚ) : ℤ := if 0 ≤ q then ⌊q⌋ else ⌈q⌉

/-- Wrap an integer into signed 16-bit range, as `DataView.setInt16`. -/
def toInt16 (n : ℤ) : ℤ := (n + 32768) % 65536 - 32768

/-- One sample of `floatTo16BitPCM`: clamp to [-1, 1], scale negatives by
0x8000 and non-negatives by 0x7fff, convert as `setInt16`. -/
def pcm16 (x : ℚ) : ℤ :=
  let clamped := max (-1) (min 1 x)
  toInt16 (ratTrunc (if clamped < 0 then clamped * 32768 else clamped * 32767))

/-- Two's-complement little-endian bytes of a signed 16-bit value. -/
def i16le (v : ℤ) : List Nat :=
  [(v % 65536).toNat % 256, (v % 65536).toNat / 256 % 256]

/-- `floatTo16BitPCM`: each sample becomes two little-endian bytes. -/
def floatTo16BitPCM : List ℚ → List Nat
  | [] => []
  | x :: xs => i16le (pcm16 x) ++ floatTo16BitPCM xs

def u16le (v : Nat) : List Nat := [v % 256, v / 256 % 256]

def u32le (v : Nat) : List Nat :=
  [v % 256, v / 256 % 256, v / 65536 % 256, v / 16777216 % 256]

/-- `encodeWavBuffer`: 44-byte RIFF/WAVE header (declaring PCM, mono,
`sampleRate`, 16 bits per sample, and the payload byte length) followed by
the 16-bit PCM encoding of channel 0. -/
def encodeWavBuffer (b : AudioBuffer) : List Nat :=
  let channelData := b.getChannelData 0
  let byteLength := channelData.length * 2
  [82, 73, 70, 70] ++ u32le (36 + byteLength) ++
  [87, 65, 86, 69] ++ [102, 109, 116, 32] ++
  u32le 16 ++ u16le 1 ++ u16le 1 ++
  u32le b.sampleRate ++ u32le (b.sampleRate * 2) ++
  u16le 2 ++ u16le 16 ++
  [100, 97, 116, 97] ++ u32le byteLength ++
  floatTo16BitPCM channelData

/-- `mixToMono`: average all channels sample-by-sample (identity on mono
buffers). -/
def mixToMono (b : AudioBuffer) : AudioBuffer :=
  if b.numberOfChannels = 1 then b
  else
    let channelData := (List.range b.numberOfChannels).map b.getChannelData
    let output := (List.range b.frameLen).map (fun i =>
      (channelData.map (fun data => data.getD i 0)).sum / (channelData.length : ℚ))
    ⟨1, b.sampleRate, [output]⟩

def TARGET_SAMPLE_RATE : Nat := 16000

/-- `resampleBuffer`: render the mixed-down source into a mono offline
context at the target rate with `ceil(duration * rate)` frames; the
rendered sample values come from the browser (`render`). -/
def resampleBuffer (render : AudioBuffer → Nat → ℚ) (b : AudioBuffer)
    (sampleRate : Nat := TARGET_SAMPLE_RATE) : AudioBuffer :=
  let outLen := (⌈b.duration * (sampleRate : ℚ)⌉).toNat
  let mono := mixToMono b
  ⟨1, sampleRate, [(List.range outLen).map (render mono)]⟩

/-- `ensureWavBlob`: pass a wav-typed blob through unchanged, otherwise
decode, resample and re-encode as a wav blob; `none` models the rejected
promise when decoding fails. -/
def ensureWavBlob (decode : List Nat → Option AudioBuffer)
    (render : AudioBuffer → Nat → ℚ) (blob : Blob)
    (sampleRate : Nat := TARGET_SAMPLE_RATE) : Option Blob :=
  if blob.type ≠ "" ∧ stringIncludes blob.type wavTag = true then
    some blob
  else
    match decode blob.bytes with
    | none => none
    | some decoded =>
      some ⟨audioWavType, encodeWavBuffer (resampleBuffer render decoded sampleRate)⟩

def readU16LE (bytes : List Nat) (off : Nat) : Nat :=
  bytes.getD off 0 + 256 * bytes.getD (off + 1) 0

def readU32LE (bytes : List Nat) (off : Nat) : Nat :=
  bytes.getD off 0 + 256 * bytes.getD (off + 1) 0 +
    65536 * bytes.getD (off + 2) 0 + 16777216 * bytes.getD (off + 3) 0

/-- Channel-count field of a WAV header (offset 22). -/
def wavNumChannels (bytes : List Nat) : Nat := readU16LE bytes 22

/-- Sample-rate field of a WAV header (offset 24). -/
def wavSampleRate (bytes : List Nat) : Nat := readU32LE bytes 24

/-- Bits-per-sample field of a WAV header (offset 34). -/
def wavBitsPerSample (bytes : List Nat) : Nat := readU16LE bytes 34

/-- Data-length field of a WAV header (offset 40). -/
def wavDataLen (bytes : List Nat) : Nat := readU32LE bytes 40

theorem toInt16_of_inRange (n : ℤ) (h1 : -32768 ≤ n) (h2 : n ≤ 32767) :
    toInt16 n = n := by
  simp only [toInt16]
  omega

theorem clamp_mem (x : ℚ) :
    -1 ≤ max (-1) (min 1 x) ∧ max (-1) (min 1 x) ≤ 1 :=
  ⟨le_max_left _ _, max_le (by norm_num) (min_le_left _ _)⟩

theorem pcm16_of_one_le (x : ℚ) (h : 1 ≤ x) : pcm16 x = 32767 := by
  have hmin : min 1 x = 1 := min_eq_left h
  have hmax : max (-1 : ℚ) 1 = 1 := max_eq_right (by norm_num)
  simp only [pcm16, hmin, hmax]
  rw [if_neg (by norm_num : ¬ (1 : ℚ) < 0)]
  have hval : ratTrunc ((1 : ℚ) * 32767) = 32767 := by
    simp only [ratTrunc, one_mul]
    rw [if_pos (by norm_num : (0 : ℚ) ≤ 32767)]
    norm_num
  rw [hval]
  decide

theorem pcm16_of_le_neg_one (x : ℚ) (h : x ≤ -1) : pcm16 x = -32768 := by
  have hmin : min 1 x = x := min_eq_right (le_trans h (by norm_num))
  have hmax : max (-1 : ℚ) x = -1 := max_eq_left h
  simp only [pcm16, hmin, hmax]
  rw [if_pos (by norm_num : (-1 : ℚ) < 0)]
  have hval : ratTrunc ((-1 : ℚ) * 32768) = -32768 := by
    simp only [ratTrunc]
    rw [if_neg (by norm_num : ¬ (0 : ℚ) ≤ -1 * 32768)]
    rw [show ((-1 : ℚ) * 32768) = ((-32768 : ℤ) : ℚ) by norm_num, Int.ceil_intCast]
  rw [hval]
  decide

theorem ratTrunc_nonneg_eq (q : ℚ) (h : 0 ≤ q) : ratTrunc q = ⌊q⌋ := by
  simp only [ratTrunc, if_pos h]

theorem ratTrunc_neg_eq (q : ℚ) (h : ¬ 0 ≤ q) : ratTrunc q = ⌈q⌉ := by
  simp only [ratTrunc, if_neg h]

theorem pcm16_clamp_first (x : ℚ) : pcm16 x = pcm16 (max (-1) (min 1 x)) := by
  obtain ⟨h1, h2⟩ := clamp_mem x
  have hfix : max (-1) (min 1 (max (-1) (min 1 x))) = max (-1) (min 1 x) := by
    rw [min_eq_right h2, max_eq_right h1]
  simp only [pcm16, hfix]

theorem pcm16_range (x : ℚ) : -32768 ≤ pcm16 x ∧ pcm16 x ≤ 32767 := by
  obtain ⟨h1, h2⟩ := clamp_mem x
  set c : ℚ := max (-1) (min 1 x) with hc
  have key : -32768 ≤ ratTrunc (if c < 0 then c * 32768 else c * 32767) ∧
      ratTrunc (if c < 0 then c * 32768 else c * 32767) ≤ 32767 := by
    by_cases hneg : c < 0
    · rw [if_pos hneg]
      have hlo : (-32768 : ℚ) ≤ c * 32768 := by nlinarith
      have hhi : c * 32768 ≤ 0 := by nlinarith
      by_cases hz : (0 : ℚ) ≤ c * 32768
      · rw [ratTrunc_nonneg_eq _ hz]
        constructor
        · exact Int.le_floor.mpr (by exact_mod_cast hlo)
        · have hfl : ⌊c * 32768⌋ ≤ ⌊(0 : ℚ)⌋ := Int.floor_mono hhi
          have hfl0 : ⌊c * 32768⌋ ≤ 0 := by simpa using hfl
          omega
      · rw [ratTrunc_neg_eq _ hz]
        have hceil : (⌈(-32768 : ℚ)⌉ : ℤ) = -32768 := by
          rw [show ((-32768 : ℚ)) = ((-32768 : ℤ) : ℚ) by norm_num, Int.ceil_intCast]
        constructor
        · exact le_trans (le_of_eq hceil.symm) (Int.ceil_mono hlo)
        · have hcl : ⌈c * 32768⌉ ≤ (0 : ℤ) := Int.ceil_le.mpr (by exact_mod_cast hhi)
          omega
    · rw [if_neg hneg]
      push_neg at hneg
      have hlo : (0 : ℚ) ≤ c * 32767 := by nlinarith
      have hhi : c * 32767 ≤ 32767 := by nlinarith
      rw [ratTrunc_nonneg_eq _ hlo]
      constructor
      · refine Int.le_floor.mpr ?_
        push_cast
        linarith
      · have hfl : ⌊c * 32767⌋ ≤ ⌊(32767 : ℚ)⌋ := Int.floor_mono hhi
        have h327 : (⌊(32767 : ℚ)⌋ : ℤ) = 32767 := by norm_num
        omega
  have hp : pcm16 x = toInt16 (ratTrunc (if c < 0 then c * 32768 else c * 32767)) := by
    simp only [pcm16, ← hc]
  rw [hp, toInt16_of_inRange _ key.1 key.2]
  exact key

theorem floatTo16BitPCM_length (xs : List ℚ) :
    (floatTo16BitPCM xs).length = 2 * xs.length := by
  induction xs with
  | nil => simp [floatTo16BitPCM]
  | cons x xs ih =>
    simp only [floatTo16BitPCM, i16le, List.length_append, List.length_cons,
      List.length_nil, ih]
    omega

theorem floatTo16BitPCM_bytes (xs : List ℚ) :
    ∀ i, i < xs.length →
      (floatTo16BitPCM xs).getD (2 * i) 0 = (pcm16 (xs.getD i 0) % 65536).toNat % 256 ∧
      (floatTo16BitPCM xs).getD (2 * i + 1) 0 =
        (pcm16 (xs.getD i 0) % 65536).toNat / 256 % 256 := by
  induction xs with
  | nil => intro i h; simp at h
  | cons x xs ih =>
    intro i hi
    rcases i with _ | j
    · simp [floatTo16BitPCM, i16le]
    · have hj : j < xs.length := by simpa using hi
      have h2 : 2 * (j + 1) = (2 * j) + 2 := by ring
      have h2' : 2 * (j + 1) + 1 = (2 * j + 1) + 2 := by ring
      constructor
      · rw [h2]
        simpa [floatTo16BitPCM, i16le] using (ih j hj).1
      · rw [h2']
        simpa [floatTo16BitPCM, i16le] using (ih j hj).2

/-- C8: quantization clamps each float sample to [-1, 1], then scales
asymmetrically — negatives by 32768, non-negatives by 32767 — into a
signed 16-bit value: exactly 1.0 encodes to 32767, exactly -1.0 to -32768,
and out-of-range inputs such as 1.5 clamp before scaling; every encoded
value lies in [-32768, 32767], and sample `i` is written little-endian at
byte offsets `2*i` (low byte) and `2*i + 1` (high byte). -/
theorem quantizer_clamp_scale_boundary :
    pcm16 1 = 32767 ∧ pcm16 (-1) = -32768 ∧ pcm16 (3 / 2) = 32767 ∧
    (∀ x : ℚ, 1 ≤ x → pcm16 x = 32767) ∧
    (∀ x : ℚ, x ≤ -1 → pcm16 x = -32768) ∧
    (∀ x : ℚ, pcm16 x = pcm16 (max (-1) (min 1 x))) ∧
    (∀ x : ℚ, -32768 ≤ pcm16 x ∧ pcm16 x ≤ 32767) ∧
    (∀ xs : List ℚ, (floatTo16BitPCM xs).length = 2 * xs.length) ∧
    (∀ (xs : List ℚ) (i : Nat), i < xs.length →
      (floatTo16BitPCM xs).getD (2 * i) 0 =
        (pcm16 (xs.getD i 0) % 65536).toNat % 256 ∧
      (floatTo16BitPCM xs).getD (2 * i + 1) 0 =
        (pcm16 (xs.getD i 0) % 65536).toNat / 256 % 256) :=
  ⟨pcm16_of_one_le 1 le_rfl, pcm16_of_le_neg_one (-1) le_rfl,
   pcm16_of_one_le (3 / 2) (by norm_num),
   pcm16_of_one_le, pcm16_of_le_neg_one, pcm16_clamp_first, pcm16_range,
   floatTo16BitPCM_length, floatTo16BitPCM_bytes⟩

/-- Witness for C8 at concrete saturating inputs. -/
theorem quantizer_clamp_scale_boundary_witness :
    pcm16 2 = 32767 ∧ pcm16 (-2) = -32768 :=
  ⟨quantizer_clamp_scale_boundary.2.2.2.1 2 (by decide),
   quantizer_clamp_scale_boundary.2.2.2.2.1 (-2) (by decide)⟩

set_option maxHeartbeats 1600000 in
theorem wavNumChannels_encode (b : AudioBuffer) :
    wavNumChannels (encodeWavBuffer b) = 1 := rfl

set_option maxHeartbeats 1600000 in
theorem wavBitsPerSample_encode (b : AudioBuffer) :
    wavBitsPerSample (encodeWavBuffer b) = 16 := rfl

set_option maxHeartbeats 1600000 in
theorem wavSampleRate_encode (b : AudioBuffer) :
    wavSampleRate (encodeWavBuffer b) = b.sampleRate % 4294967296 := by
  have h : wavSampleRate (encodeWavBuffer b) =
      b.sampleRate % 256 + 256 * (b.sampleRate / 256 % 256) +
        65536 * (b.sampleRate / 65536 % 256) +
        16777216 * (b.sampleRate / 16777216 % 256) := rfl
  rw [h]
  omega

set_option maxHeartbeats 1600000 in
theorem wavDataLen_encode (b : AudioBuffer)
    (h : (b.getChannelData 0).length * 2 < 4294967296) :
    wavDataLen (encodeWavBuffer b) = (b.getChannelData 0).length * 2 := by
  have hr : wavDataLen (encodeWavBuffer b) =
      (b.getChannelData 0).length * 2 % 256 +
        256 * ((b.getChannelData 0).length * 2 / 256 % 256) +
        65536 * ((b.getChannelData 0).length * 2 / 65536 % 256) +
        16777216 * ((b.getChannelData 0).length * 2 / 16777216 % 256) := rfl
  rw [hr]
  omega

theorem encodeWav_length (b : AudioBuffer) :
    (encodeWavBuffer b).length = 44 + 2 * (b.getChannelData 0).length := by
  simp [encodeWavBuffer, u16le, u32le, floatTo16BitPCM_length,
    List.length_append]
  omega

/-- C6 (amended): for every input that does not self-report the canonical
container type and decodes successfully, the normalizer's output is a
44-byte header plus payload declaring exactly one channel, a 16000 Hz
sample rate, 16 bits per sample, and the exact payload byte length.
(Fast-path inputs self-reporting the canonical type are returned
byte-identical, so no such guarantee holds for them.) -/
theorem normalizer_header_conversion (decode : List Nat → Option AudioBuffer)
    (render : AudioBuffer → Nat → ℚ) (blob : Blob) (decoded : AudioBuffer)
    (hfast : ¬ (blob.type ≠ "" ∧ stringIncludes blob.type wavTag = true))
    (hdec : decode blob.bytes = some decoded)
    (hsize :
      (resampleBuffer render decoded TARGET_SAMPLE_RATE).frameLen * 2 < 4294967296) :
    ∃ out : Blob, ensureWavBlob decode render blob = some out ∧
      out.type = audioWavType ∧
      wavNumChannels out.bytes = 1 ∧
      wavSampleRate out.bytes = 16000 ∧
      wavBitsPerSample out.bytes = 16 ∧
      wavDataLen out.bytes =
        (resampleBuffer render decoded TARGET_SAMPLE_RATE).frameLen * 2 ∧
      out.bytes.length =
        44 + 2 * (resampleBuffer render decoded TARGET_SAMPLE_RATE).frameLen := by
  refine ⟨⟨audioWavType,
    encodeWavBuffer (resampleBuffer render decoded TARGET_SAMPLE_RATE)⟩,
    ?_, rfl, wavNumChannels_encode _, ?_, wavBitsPerSample_encode _, ?_, ?_⟩
  · simp only [ensureWavBlob, if_neg hfast, hdec]
  · simp [wavSampleRate_encode, resampleBuffer, TARGET_SAMPLE_RATE]
  · exact wavDataLen_encode _ hsize
  · rw [encodeWav_length]
    simp only [AudioBuffer.frameLen]

def decodeNone : List Nat → Option AudioBuffer := fun _ => none

def renderZero : AudioBuffer → Nat → ℚ := fun _ _ => 0

def decodeEmptyMono : List Nat → Option AudioBuffer := fun _ => some ⟨1, 8000, [[]]⟩

/-- A blob whose MIME type self-reports the canonical container but whose
header bytes declare a 44100 Hz sample rate. -/
def canonicalTyped44100 : Blob := ⟨audioWavType, encodeWavBuffer ⟨1, 44100, [[]]⟩⟩

/-- C6 counterexample: a wav-typed blob takes the pass-through fast path
byte-identically, so its header keeps declaring 44100 Hz rather than the
claimed 16000 Hz. -/
theorem normalizer_fastpath_counterexample :
    ensureWavBlob decodeNone renderZero canonicalTyped44100 =
      some canonicalTyped44100 ∧
    wavSampleRate canonicalTyped44100.bytes = 44100 ∧
    ¬ wavSampleRate canonicalTyped44100.bytes = 16000 := by
  decide

/-- Witness for C6 (amended) at a concrete non-wav-typed input. -/
theorem normalizer_header_conversion_witness :
    ∃ out : Blob,
      ensureWavBlob decodeEmptyMono renderZero ⟨"audio/webm", [1]⟩ = some out ∧
      out.type = audioWavType ∧
      wavNumChannels out.bytes = 1 ∧
      wavSampleRate out.bytes = 16000 ∧
      wavBitsPerSample out.bytes = 16 ∧
      wavDataLen out.bytes =
        (resampleBuffer renderZero ⟨1, 8000, [[]]⟩ TARGET_SAMPLE_RATE).frameLen * 2 ∧
      out.bytes.length =
        44 + 2 * (resampleBuffer renderZero ⟨1, 8000, [[]]⟩ TARGET_SAMPLE_RATE).frameLen :=
  normalizer_header_conversion decodeEmptyMono renderZero ⟨"audio/webm", [1]⟩
    ⟨1, 8000, [[]]⟩ (by decide) rfl
    (by simp [resampleBuffer, mixToMono, AudioBuffer.duration, AudioBuffer.frameLen,
          AudioBuffer.getChannelData])

/-- `sendChunkToTranscription` from `useAudioRecording.ts`: empty chunks
are skipped; non-wav-typed chunks are converted via `ensureWavBlob`, and on
conversion failure the raw chunk is used as the payload; the result is the
payload handed to `transcribeBlob`, or `none` when no upload happens. -/
def sendChunkToTranscription (decode : List Nat → Option AudioBuffer)
    (render : AudioBuffer → Nat → ℚ) (chunk : Blob) : Option Blob :=
  if chunk.size = 0 then none
  else
    some (if stringIncludes chunk.type wavTag = true then chunk
          else
            match ensureWavBlob decode render chunk with
            | some wav => wav
            | none => chunk)

/-- C7 counterexample: a chunk whose conversion fails with a decode error
is still uploaded — as the raw chunk — rather than dropped. -/
theorem decode_failure_upload_counterexample :
    sendChunkToTranscription decodeNone renderZero ⟨"audio/webm", [1]⟩ =
      some ⟨"audio/webm", [1]⟩ ∧
    ¬ sendChunkToTranscription decodeNone renderZero ⟨"audio/webm", [1]⟩ = none := by
  decide

/-- C7 (amended): when a segment's conversion to canonical audio fails,
the segment is not dropped: the raw unconverted chunk is uploaded as the
payload instead, and the pipeline continues. -/
theorem decode_failure_raw_fallback (decode : List Nat → Option AudioBuffer)
    (render : AudioBuffer → Nat → ℚ) (chunk : Blob)
    (hne : chunk.size ≠ 0)
    (hwav : stringIncludes chunk.type wavTag = false)
    (hfail : ensureWavBlob decode render chunk = none) :
    sendChunkToTranscription decode render chunk = some chunk := by
  simp [sendChunkToTranscription, hne, hwav, hfail]

/-- Witness for C7 (amended) at a concrete failing decode. -/
theorem decode_failure_raw_fallback_witness :
    sendChunkToTranscription decodeNone renderZero ⟨"audio/webm", [1]⟩ =
      some ⟨"audio/webm", [1]⟩ :=
  decode_failure_raw_fallback decodeNone renderZero ⟨"audio/webm", [1]⟩
    (by decide) (by decide) (by decide)

/-- C10: the normalizer is idempotent on inputs that already self-report
the canonical container type: `normalize (normalize x) = normalize x`. -/
theorem normalize_idempotent_on_canonical (decode : List Nat → Option AudioBuffer)
    (render : AudioBuffer → Nat → ℚ) (x : Blob)
    (h1 : x.type ≠ "") (h2 : stringIncludes x.type wavTag = true) :
    (ensureWavBlob decode render x).bind
        (fun y => ensureWavBlob decode render y) =
      ensureWavBlob decode render x := by
  have hfast : ensureWavBlob decode render x = some x := by
    simp only [ensureWavBlob, if_pos (And.intro h1 h2)]
  rw [hfast]
  show ensureWavBlob decode render x = some x
  exact hfast

/-- Witness for C10 at a concrete canonically-typed blob. -/
theorem normalize_idempotent_on_canonical_witness :
    (ensureWavBlob decodeNone renderZero canonicalTyped44100).bind
        (fun y => ensureWavBlob decodeNone renderZero y) =
      ensureWavBlob decodeNone renderZero canonicalTyped44100 :=
  normalize_idempotent_on_canonical decodeNone renderZero canonicalTyped44100
    (by decide) (by decide)

/-! ## Transcript Merge

Embedded from the `onTranscription` callback in `AudioCapture.tsx`: the
result text is whitespace-normalized (`replace(/\s+/g, ' ').trim()`),
discarded when empty or equal to the current last line, and otherwise
appended with the list truncated to its last 200 lines (`slice(-200)`).
-/

def isWs (c : Char) : Bool := c == ' ' || c == '\t' || c == '\n' || c == '\r'

/-- `replace(/\s+/g, ' ')`: each maximal whitespace run becomes one
space; the flag records whether the previous character was whitespace. -/
def collapseWsAux : List Char → Bool → List Char
  | [], _ => []
  | c :: rest, prevWs =>
    if isWs c then
      (if prevWs then [] else [' ']) ++ collapseWsAux rest true
    else c :: collapseWsAux rest false

/-- `String.prototype.trim`. -/
def trimWs (l : List Char) : List Char :=
  ((l.dropWhile isWs).reverse.dropWhile isWs).reverse

/-- `(r?.text || '').replace(/\s+/g, ' ').trim()`. -/
def normalizeText (s : String) : String :=
  ⟨trimWs (collapseWsAux s.toList false)⟩

/-- `prev[prev.length - 1] || ''`. -/
def lastOrEmpty (prev : List String) : String :=
  match prev.getLast? with
  | some l => l
  | none => ""

/-- One merge step of the live transcript. -/
def mergeTranscript (prev : List String) (text : String) : List String :=
  let t := normalizeText text
  if t = "" then prev
  else
    if t = lastOrEmpty prev then prev
    else
      let merged := prev ++ [t]
      merged.drop (merged.length - 200)

set_option maxRecDepth 4000 in
theorem mergeTranscript_inv (prev : List String) (t : String)
    (hchain : List.Chain' (fun a b => a ≠ b) prev) (hlen : prev.length ≤ 200) :
    List.Chain' (fun a b => a ≠ b) (mergeTranscript prev t) ∧
      (mergeTranscript prev t).length ≤ 200 := by
  unfold mergeTranscript
  by_cases h1 : normalizeText t = ""
  · simp only [if_pos h1]
    exact ⟨hchain, hlen⟩
  · simp only [if_neg h1]
    by_cases h2 : normalizeText t = lastOrEmpty prev
    · simp only [if_pos h2]
      exact ⟨hchain, hlen⟩
    · simp only [if_neg h2]
      have happ : List.Chain' (fun a b => a ≠ b) (prev ++ [normalizeText t]) := by
        rw [List.chain'_append]
        refine ⟨hchain, List.chain'_singleton _, ?_⟩
        intro x hx y hy
        rw [Option.mem_def] at hx
        simp only [List.head?_cons, Option.mem_def, Option.some.injEq] at hy
        subst hy
        intro he
        apply h2
        simp [lastOrEmpty, hx, he]
      constructor
      · exact happ.drop _
      · rw [List.length_drop]
        simp only [List.length_append, List.length_singleton]
        omega

theorem transcript_fold_inv (results : List String) :
    ∀ acc, List.Chain' (fun a b => a ≠ b) acc → acc.length ≤ 200 →
      List.Chain' (fun a b => a ≠ b) (results.foldl mergeTranscript acc) ∧
        (results.foldl mergeTranscript acc).length ≤ 200 := by
  induction results with
  | nil =>
    intro acc h1 h2
    exact ⟨h1, h2⟩
  | cons r rs ih =>
    intro acc h1 h2
    obtain ⟨h1', h2'⟩ := mergeTranscript_inv acc r h1 h2
    simpa [List.foldl] using ih _ h1' h2'

/-- C9: each merge whitespace-normalizes the text, discards it when empty
or equal to the current last line, and otherwise appends and truncates to
the newest 200 lines; consequently the transcript never holds two adjacent
identical (post-normalized) lines and never exceeds 200 lines, both after
any single merge preserving the invariant and over any whole run of merges
starting from the empty transcript. -/
theorem transcript_merge_invariants :
    (∀ prev t, normalizeText t = "" → mergeTranscript prev t = prev) ∧
    (∀ prev t, normalizeText t = lastOrEmpty prev → mergeTranscript prev t = prev) ∧
    (∀ prev t, List.Chain' (fun a b => a ≠ b) prev → prev.length ≤ 200 →
      List.Chain' (fun a b => a ≠ b) (mergeTranscript prev t) ∧
        (mergeTranscript prev t).length ≤ 200) ∧
    (∀ results : List String,
      List.Chain' (fun a b => a ≠ b) (results.foldl mergeTranscript []) ∧
        (results.foldl mergeTranscript []).length ≤ 200) := by
  refine ⟨?_, ?_, mergeTranscript_inv, ?_⟩
  · intro prev t h
    simp [mergeTranscript, h]
  · intro prev t h
    by_cases h1 : normalizeText t = ""
    · simp [mergeTranscript, h1]
    · simp [mergeTranscript, h1, h]
  · intro results
    exact transcript_fold_inv results [] (List.chain'_nil) (by simp)

def sampleLineA : String := "a"

def sampleLineB : String := "b"

/-- Witness for C9 at a concrete one-line transcript and fresh text. -/
theorem transcript_merge_invariants_witness :
    List.Chain' (fun a b => a ≠ b) (mergeTranscript [sampleLineA] sampleLineB) ∧
      (mergeTranscript [sampleLineA] sampleLineB).length ≤ 200 :=
  transcript_merge_invariants.2.2.1 [sampleLineA] sampleLineB
    (List.chain'_singleton _) (by decide)
